import Mathlib

set_option maxRecDepth 8192

/-!
Verification of the CalRunrilla-web core against its specification.

The definitions below are shallow embeddings of the Go sources:
serial/com.go (CRC16, frame building and validation, payload parsing),
the Leo485 device driver, matrix/matrix.go (dense matrix and vector
operations), calibration/calibration.go and calibration/adc.go (the CLI
calibration flow), calibration/test.go (zero averaging), and the web
DeviceSession handlers (operation start and cancel, calibration step
accumulation, compute precondition).

Machine integers are modelled as Nat (bytes are Nat values below 256,
the 16-bit CRC accumulator is reduced modulo 65536 exactly where the Go
uint16 arithmetic wraps); ADC readings and matrix entries are modelled
as exact numbers since no claim depends on floating-point rounding.
Fallible Go paths (errors, nil results, runtime panics) are modelled
with Except and explicit result markers.
-/

/-! ## CRC16 (serial/com.go, func crc16) -/

/-- One iteration of the inner reduction loop of crc16 in serial/com.go:
carry is the top bit of the 16-bit accumulator, the accumulator is XORed
with 0x8810 (= 34832) when the carry is set, then shifted left with the
carry re-entering at bit 0, wrapping at 2^16 as Go uint16 arithmetic does. -/
def crcStep (cs : Nat) : Nat :=
  ((if cs &&& 32768 ≠ 0 then cs ^^^ 34832 else cs) <<< 1 + (cs &&& 32768) >>> 15) % 65536

/-- n successive crcStep iterations (the `for i := 0; i < 8; i++` loop). -/
def crcSteps : Nat → Nat → Nat
  | 0, cs => cs
  | n + 1, cs => crcSteps n (crcStep cs)

/-- Per-byte update of crc16 in serial/com.go: the byte is XORed into the
high 8 bits of the accumulator and then 8 shift-and-reduce steps run. -/
def crcByte (cs b : Nat) : Nat := crcSteps 8 (cs ^^^ (b <<< 8))

/-- The 16-bit CRC accumulator value of crc16 over a byte list. -/
def crc16core (data : List Nat) : Nat := data.foldl crcByte 0

/-- crc16 from serial/com.go: the accumulator emitted as 2 big-endian bytes
(binary.BigEndian.PutUint16). -/
def crc16 (data : List Nat) : List Nat := [crc16core data / 256, crc16core data % 256]

/-- One shift-and-reduce step written the way the specification words it:
when the carry bit is set (accumulator at least 0x8000) XOR with 0x8810,
then shift, with Go uint16 wrap-around. -/
def crcStepFromSpec (cs : Nat) : Nat :=
  if 32768 ≤ cs then ((cs ^^^ 34832) * 2 + 1) % 65536 else (cs * 2) % 65536

/-- stepsPerByte successive specification-worded reduce steps. -/
def crcStepsFromSpec : Nat → Nat → Nat
  | 0, cs => cs
  | n + 1, cs => crcStepsFromSpec n (crcStepFromSpec cs)

/-- The CRC16 algorithm exactly as the specification describes it, with the
number of shift-and-reduce steps per input byte as a parameter (the spec
fixes 16 steps): XOR the byte into the high 8 bits, run the reduce steps,
emit 2 big-endian bytes. -/
def crc16FromSpec (stepsPerByte : Nat) (data : List Nat) : List Nat :=
  let core := data.foldl (fun cs b => crcStepsFromSpec stepsPerByte (cs ^^^ (b <<< 8))) 0
  [core / 256, core % 256]

theorem crcStep_lt (cs : Nat) : crcStep cs < 65536 := by
  unfold crcStep
  exact Nat.mod_lt _ (by norm_num)

theorem crcSteps_lt (n : Nat) {cs : Nat} (h : cs < 65536) : crcSteps n cs < 65536 := by
  induction n generalizing cs with
  | zero => exact h
  | succ n ih => exact ih (crcStep_lt cs)

theorem crcSteps_eight (cs : Nat) : crcSteps 8 cs = crcSteps 7 (crcStep cs) := rfl

theorem crcByte_lt (cs b : Nat) : crcByte cs b < 65536 := by
  unfold crcByte
  rw [crcSteps_eight]
  exact crcSteps_lt 7 (crcStep_lt _)

theorem foldl_crcByte_lt (data : List Nat) {cs : Nat} (h : cs < 65536) :
    data.foldl crcByte cs < 65536 := by
  induction data generalizing cs with
  | nil => exact h
  | cons x xs ih => exact ih (crcByte_lt cs x)

theorem crc16core_lt (data : List Nat) : crc16core data < 65536 :=
  foldl_crcByte_lt data (by norm_num)

theorem xor_byte_high_lt {cs x : Nat} (hcs : cs < 65536) (hx : x < 256) :
    cs ^^^ (x <<< 8) < 65536 := by
  have hsh : x <<< 8 = x * 256 := by rw [Nat.shiftLeft_eq]
  have hlt : x <<< 8 < 65536 := by omega
  exact Nat.xor_lt_two_pow (n := 16) hcs hlt

theorem and_top_bit (cs : Nat) : cs &&& 32768 = if cs.testBit 15 then 32768 else 0 := by
  have h : (32768 : Nat) = 2 ^ 15 := by norm_num
  rw [h, Nat.and_two_pow]
  cases cs.testBit 15 <;> simp

theorem testBit15_of_ge {cs : Nat} (hlt : cs < 65536) (hge : 32768 ≤ cs) :
    cs.testBit 15 = true := by
  by_contra hbit
  have hb : cs.testBit 15 = false := by
    cases h : cs.testBit 15
    · rfl
    · exact absurd h hbit
  have : cs < 2 ^ 15 := by
    apply Nat.lt_pow_two_of_testBit
    intro i hi
    rcases Nat.eq_or_lt_of_le hi with h15 | h16
    · rw [← h15]; exact hb
    · refine Nat.testBit_lt_two_pow (lt_of_lt_of_le hlt ?_)
      calc (65536 : Nat) = 2 ^ 16 := by norm_num
      _ ≤ 2 ^ i := Nat.pow_le_pow_right (by norm_num) h16
  omega

theorem and_top_of_ge {cs : Nat} (hlt : cs < 65536) (hge : 32768 ≤ cs) :
    cs &&& 32768 = 32768 := by
  rw [and_top_bit, testBit15_of_ge hlt hge, if_pos rfl]

theorem and_top_of_lt {cs : Nat} (h : cs < 32768) : cs &&& 32768 = 0 := by
  rw [and_top_bit]
  have : cs.testBit 15 = false := Nat.testBit_lt_two_pow (by norm_num at h ⊢; omega)
  rw [this]
  simp

/-- For 16-bit values, the source's mask-based step agrees with the
specification-worded comparison-based step. -/
theorem crcStep_eq_fromSpec {cs : Nat} (h : cs < 65536) :
    crcStep cs = crcStepFromSpec cs := by
  unfold crcStep crcStepFromSpec
  by_cases hge : 32768 ≤ cs
  · rw [and_top_of_ge h hge, if_pos hge, if_pos (by norm_num : (32768 : Nat) ≠ 0)]
    have h1 : (cs ^^^ 34832) <<< 1 = (cs ^^^ 34832) * 2 := by
      rw [Nat.shiftLeft_eq, pow_one]
    have h2 : (32768 : Nat) >>> 15 = 1 := by decide
    rw [h1, h2]
  · rw [and_top_of_lt (by omega), if_neg hge, if_neg (by norm_num : ¬((0 : Nat) ≠ 0))]
    have h1 : cs <<< 1 = cs * 2 := by rw [Nat.shiftLeft_eq, pow_one]
    have h2 : (0 : Nat) >>> 15 = 0 := by decide
    rw [h1, h2, Nat.add_zero]

theorem crcSteps_eq_fromSpec (n : Nat) {cs : Nat} (h : cs < 65536) :
    crcSteps n cs = crcStepsFromSpec n cs := by
  induction n generalizing cs with
  | zero => rfl
  | succ n ih =>
    show crcSteps n (crcStep cs) = crcStepsFromSpec n (crcStepFromSpec cs)
    rw [← crcStep_eq_fromSpec h]
    exact ih (crcStep_lt cs)

theorem crcByte_eq_fromSpec {cs x : Nat} (hcs : cs < 65536) (hx : x < 256) :
    crcByte cs x = crcStepsFromSpec 8 (cs ^^^ (x <<< 8)) :=
  crcSteps_eq_fromSpec 8 (xor_byte_high_lt hcs hx)

/-- C1 (counterexample): the CRC16 of the single byte 0x01 computed by the
source (8 shift-and-reduce steps per byte) differs from the value produced
by the algorithm the specification words verbatim with 16 shift-and-reduce
steps per input byte, so the claimed algorithm does not match the code. -/
theorem crc16_sixteen_step_counterexample :
    crc16 [1] ≠ crc16FromSpec 16 [1] := by decide

/-- C1 (amended): the CRC16 used for framing is exactly the bit-reversed
polynomial algorithm the specification describes, with 8 (not 16)
shift-and-reduce steps per input byte: the accumulator is XORed with the
byte shifted into the high 8 bits, each step XORs with 0x8810 when the
carry bit is set, and the result is emitted as 2 big-endian bytes. -/
theorem crc16_eq_spec_algorithm_eight_steps (data : List Nat)
    (hb : ∀ b ∈ data, b < 256) : crc16 data = crc16FromSpec 8 data := by
  have key : ∀ (rest : List Nat) (cs : Nat), cs < 65536 → (∀ b ∈ rest, b < 256) →
      rest.foldl crcByte cs =
      rest.foldl (fun cs b => crcStepsFromSpec 8 (cs ^^^ (b <<< 8))) cs := by
    intro rest
    induction rest with
    | nil => intro cs _ _; simp only [List.foldl_nil]
    | cons x xs ih =>
      intro cs hcs hmem
      simp only [List.foldl_cons]
      have hx : x < 256 := hmem x (by simp)
      rw [← crcByte_eq_fromSpec hcs hx]
      exact ih (crcByte cs x) (crcByte_lt cs x) (fun b hbmem => hmem b (by simp [hbmem]))
  simp only [crc16, crc16FromSpec, crc16core]
  rw [key data 0 (by norm_num) hb]

/-- Witness for the amended C1 theorem at a concrete input. -/
theorem crc16_eq_spec_algorithm_eight_steps_witness :
    (∀ b ∈ [48, 49, 124], b < 256) ∧ crc16 [48, 49, 124] = crc16FromSpec 8 [48, 49, 124] :=
  ⟨by decide, crc16_eq_spec_algorithm_eight_steps [48, 49, 124] (by decide)⟩

/-! ## Bit-level structure of crcStep, used for the CRC error-detection
properties of frame validation -/

theorem testBit_two_mul (x i : Nat) :
    (2 * x).testBit i = (decide (1 ≤ i) && x.testBit (i - 1)) := by
  rw [show 2 * x = x <<< 1 by rw [Nat.shiftLeft_eq, pow_one, Nat.mul_comm]]
  exact Nat.testBit_shiftLeft x

theorem two_mul_xor (a b : Nat) : 2 * (a ^^^ b) = 2 * a ^^^ 2 * b := by
  apply Nat.eq_of_testBit_eq
  intro i
  simp only [testBit_two_mul, Nat.testBit_xor]
  exact Bool.and_xor_distrib_left _ _ _

theorem even_xor_one {x : Nat} (h : x % 2 = 0) : x ^^^ 1 = x + 1 := by
  apply Nat.eq_of_testBit_eq
  intro i
  cases i with
  | zero =>
    rw [Nat.testBit_xor, Nat.testBit_zero, Nat.testBit_zero, Nat.testBit_zero]
    have h1 : ¬(x % 2 = 1) := by omega
    have h2 : (x + 1) % 2 = 1 := by omega
    simp [h1, h2]
  | succ i =>
    rw [Nat.testBit_xor]
    have h1 : Nat.testBit 1 (i + 1) = false := by
      rw [Nat.testBit_add_one]
      norm_num
    rw [h1, Bool.xor_false, Nat.testBit_add_one, Nat.testBit_add_one]
    have h2 : (x + 1) / 2 = x / 2 := by omega
    rw [h2]

theorem add_two_pow_eq_xor (n : Nat) {d : Nat} (h : d < 2 ^ n) :
    2 ^ n + d = 2 ^ n ^^^ d := by
  apply Nat.eq_of_testBit_eq
  intro i
  rcases lt_trichotomy i n with hlt | heq | hgt
  · rw [Nat.testBit_two_pow_add_gt hlt, Nat.testBit_xor, Nat.testBit_two_pow,
      decide_eq_false (by omega)]
    simp
  · subst heq
    rw [Nat.testBit_two_pow_add_eq, Nat.testBit_xor, Nat.testBit_two_pow,
      Nat.testBit_lt_two_pow h, decide_eq_true rfl]
    simp
  · have hb1 : (2 ^ n + d).testBit i = false := by
      apply Nat.testBit_lt_two_pow
      calc 2 ^ n + d < 2 ^ n + 2 ^ n := by omega
      _ = 2 ^ (n + 1) := by ring
      _ ≤ 2 ^ i := Nat.pow_le_pow_right (by norm_num) hgt
    have hb2 : d.testBit i = false :=
      Nat.testBit_lt_two_pow (lt_of_lt_of_le h (Nat.pow_le_pow_right (by norm_num) (le_of_lt hgt)))
    rw [hb1, Nat.testBit_xor, Nat.testBit_two_pow, decide_eq_false (by omega), hb2]
    simp

theorem add_65536_eq_xor {d : Nat} (h : d < 65536) : 65536 + d = 65536 ^^^ d := by
  have h2 : d < 2 ^ 16 := by
    have : (2 : Nat) ^ 16 = 65536 := by norm_num
    omega
  calc (65536 : Nat) + d = 2 ^ 16 + d := by norm_num
  _ = 2 ^ 16 ^^^ d := add_two_pow_eq_xor 16 h2
  _ = 65536 ^^^ d := by norm_num

theorem xor_mod_two_pow_16 (a b : Nat) :
    (a ^^^ b) % 65536 = a % 65536 ^^^ b % 65536 := by
  have h : (65536 : Nat) = 2 ^ 16 := by norm_num
  rw [h]
  apply Nat.eq_of_testBit_eq
  intro i
  simp only [Nat.testBit_mod_two_pow, Nat.testBit_xor]
  exact Bool.and_xor_distrib_left _ _ _

theorem shiftLeft_xor (a b n : Nat) : (a ^^^ b) <<< n = a <<< n ^^^ b <<< n := by
  apply Nat.eq_of_testBit_eq
  intro i
  simp only [Nat.testBit_shiftLeft, Nat.testBit_xor]
  exact Bool.and_xor_distrib_left _ _ _

theorem ge_of_testBit15 {cs : Nat} (h : cs.testBit 15 = true) : 32768 ≤ cs := by
  have := Nat.testBit_implies_ge h
  calc (32768 : Nat) = 2 ^ 15 := by norm_num
  _ ≤ cs := this

theorem testBit15_lt_of_false {cs : Nat} (hlt : cs < 65536) (hb : cs.testBit 15 = false) :
    cs < 32768 := by
  have : cs < 2 ^ 15 := by
    apply Nat.lt_pow_two_of_testBit
    intro i hi
    rcases Nat.eq_or_lt_of_le hi with h15 | h16
    · rw [← h15]; exact hb
    · refine Nat.testBit_lt_two_pow (lt_of_lt_of_le hlt ?_)
      calc (65536 : Nat) = 2 ^ 16 := by norm_num
      _ ≤ 2 ^ i := Nat.pow_le_pow_right (by norm_num) h16
  omega

/-- Canonical polynomial form of the reduce step: left shift modulo 2^16,
then XOR with 0x1021 exactly when the shifted-out bit was set. -/
theorem crcStep_canon {cs : Nat} (h : cs < 65536) :
    crcStep cs = 2 * cs % 65536 ^^^ (if cs.testBit 15 then 4129 else 0) := by
  unfold crcStep
  cases hbit : cs.testBit 15 with
  | false =>
    have hlt : cs < 32768 := testBit15_lt_of_false h hbit
    rw [and_top_of_lt hlt, if_neg (by norm_num : ¬((0 : Nat) ≠ 0))]
    have h1 : cs <<< 1 = 2 * cs := by rw [Nat.shiftLeft_eq, pow_one, Nat.mul_comm]
    have h2 : (0 : Nat) >>> 15 = 0 := by decide
    rw [h1, h2, Nat.add_zero]
    simp
  | true =>
    have hge : 32768 ≤ cs := ge_of_testBit15 hbit
    rw [and_top_of_ge h hge, if_pos (by norm_num : (32768 : Nat) ≠ 0), if_pos rfl]
    have hx16 : cs ^^^ 34832 < 65536 :=
      Nat.xor_lt_two_pow (n := 16) h (by norm_num)
    have hxbit : (cs ^^^ 34832).testBit 15 = false := by
      rw [Nat.testBit_xor, hbit]
      have h34832 : (34832 : Nat).testBit 15 = true := by decide
      rw [h34832]
      rfl
    have hxlt : cs ^^^ 34832 < 32768 := testBit15_lt_of_false hx16 hxbit
    have h1 : (cs ^^^ 34832) <<< 1 = 2 * (cs ^^^ 34832) := by
      rw [Nat.shiftLeft_eq, pow_one, Nat.mul_comm]
    have h2 : (32768 : Nat) >>> 15 = 1 := by decide
    rw [h1, h2]
    have hmod : (2 * (cs ^^^ 34832) + 1) % 65536 = 2 * (cs ^^^ 34832) + 1 :=
      Nat.mod_eq_of_lt (by omega)
    rw [hmod, ← even_xor_one (by omega), two_mul_xor]
    have e35 : 2 * 34832 = 69664 := by norm_num
    rw [e35, Nat.xor_assoc]
    have e1 : (69664 : Nat) ^^^ 1 = 69665 := by decide
    rw [e1]
    have hd : 2 * cs - 65536 < 65536 := by omega
    have hsum : 2 * cs = 65536 + (2 * cs - 65536) := by omega
    have hxor2 : 2 * cs = 65536 ^^^ (2 * cs - 65536) := by
      conv_lhs => rw [hsum]
      exact add_65536_eq_xor hd
    have hmod2 : 2 * cs % 65536 = 2 * cs - 65536 := by omega
    rw [hmod2]
    conv_lhs => rw [hxor2]
    rw [Nat.xor_assoc, Nat.xor_comm (2 * cs - 65536) 69665, ← Nat.xor_assoc]
    have e2 : (65536 : Nat) ^^^ 69665 = 4129 := by decide
    rw [e2, Nat.xor_comm]

theorem xor_left_comm (a b c : Nat) : a ^^^ (b ^^^ c) = b ^^^ (a ^^^ c) := by
  rw [← Nat.xor_assoc, Nat.xor_comm a b, Nat.xor_assoc]

/-- The reduce step is GF(2)-linear on 16-bit values. -/
theorem crcStep_xor {x y : Nat} (hx : x < 65536) (hy : y < 65536) :
    crcStep (x ^^^ y) = crcStep x ^^^ crcStep y := by
  have hxy : x ^^^ y < 65536 := Nat.xor_lt_two_pow (n := 16) hx hy
  rw [crcStep_canon hxy, crcStep_canon hx, crcStep_canon hy]
  rw [Nat.testBit_xor, two_mul_xor, xor_mod_two_pow_16]
  cases hbx : x.testBit 15 <;> cases hby : y.testBit 15 <;>
    simp [Nat.xor_assoc, Nat.xor_comm, xor_left_comm, Nat.xor_self, Nat.xor_cancel_left]

theorem crcSteps_xor (n : Nat) {x y : Nat} (hx : x < 65536) (hy : y < 65536) :
    crcSteps n (x ^^^ y) = crcSteps n x ^^^ crcSteps n y := by
  induction n generalizing x y with
  | zero => rfl
  | succ n ih =>
    show crcSteps n (crcStep (x ^^^ y)) = crcSteps n (crcStep x) ^^^ crcSteps n (crcStep y)
    rw [crcStep_xor hx hy]
    exact ih (crcStep_lt x) (crcStep_lt y)

theorem crcByte_xor {x y b c : Nat} (hx : x < 65536) (hy : y < 65536)
    (hb : b < 256) (hc : c < 256) :
    crcByte (x ^^^ y) (b ^^^ c) = crcByte x b ^^^ crcByte y c := by
  unfold crcByte
  have h1 : (x ^^^ y) ^^^ ((b ^^^ c) <<< 8) = (x ^^^ (b <<< 8)) ^^^ (y ^^^ (c <<< 8)) := by
    rw [shiftLeft_xor]
    simp [Nat.xor_assoc, Nat.xor_comm, xor_left_comm]
  rw [h1]
  exact crcSteps_xor 8 (xor_byte_high_lt hx hb) (xor_byte_high_lt hy hc)

theorem foldl_crcByte_zipXor : ∀ (bs cs : List Nat) (x y : Nat), bs.length = cs.length →
    x < 65536 → y < 65536 → (∀ b ∈ bs, b < 256) → (∀ c ∈ cs, c < 256) →
    (List.zipWith (fun a b => a ^^^ b) bs cs).foldl crcByte (x ^^^ y) =
      bs.foldl crcByte x ^^^ cs.foldl crcByte y := by
  intro bs
  induction bs with
  | nil =>
    intro cs x y hlen _ _ _ _
    cases cs with
    | nil => simp only [List.zipWith_nil_right, List.foldl_nil]
    | cons c cs2 => simp at hlen
  | cons b bs ih =>
    intro cs x y hlen hx hy hbs hcs
    cases cs with
    | nil => simp at hlen
    | cons c cs2 =>
      simp only [List.zipWith_cons_cons, List.foldl_cons]
      rw [crcByte_xor hx hy (hbs b (by simp)) (hcs c (by simp))]
      exact ih cs2 _ _ (by simpa using hlen) (crcByte_lt x b) (crcByte_lt y c)
        (fun z hz => hbs z (by simp [hz])) (fun z hz => hcs z (by simp [hz]))

theorem crcByte_zero_byte (s : Nat) : crcByte s 0 = crcSteps 8 s := by
  unfold crcByte
  rw [show (0 : Nat) <<< 8 = 0 from rfl, Nat.xor_zero]

theorem crcStep_ne_zero {s : Nat} (hlt : s < 65536) (h : s ≠ 0) : crcStep s ≠ 0 := by
  rw [crcStep_canon hlt]
  cases hbit : s.testBit 15 with
  | false =>
    have hs : s < 32768 := testBit15_lt_of_false hlt hbit
    have hm : 2 * s % 65536 = 2 * s := Nat.mod_eq_of_lt (by omega)
    simp only [if_neg (by simp : ¬(false = true)), Nat.xor_zero, hm]
    omega
  | true =>
    simp only [if_pos rfl]
    intro hcontra
    have heq : 2 * s % 65536 = 4129 := Nat.xor_eq_zero.mp hcontra
    omega

theorem crcSteps_ne_zero (n : Nat) {s : Nat} (hlt : s < 65536) (h : s ≠ 0) :
    crcSteps n s ≠ 0 := by
  induction n generalizing s with
  | zero => exact h
  | succ n ih =>
    show crcSteps n (crcStep s) ≠ 0
    exact ih (crcStep_lt s) (crcStep_ne_zero hlt h)

theorem foldl_zeros_zero (j : Nat) : (List.replicate j 0).foldl crcByte 0 = 0 := by
  induction j with
  | zero => rfl
  | succ j ih =>
    rw [List.replicate_succ, List.foldl_cons]
    have h0 : crcByte 0 0 = 0 := by decide
    rw [h0, ih]

theorem foldl_zeros_ne_zero (m : Nat) {s : Nat} (hlt : s < 65536) (h : s ≠ 0) :
    (List.replicate m 0).foldl crcByte s ≠ 0 := by
  induction m generalizing s with
  | zero => exact h
  | succ m ih =>
    rw [List.replicate_succ, List.foldl_cons]
    refine ih (crcByte_lt s 0) ?_
    rw [crcByte_zero_byte]
    exact crcSteps_ne_zero 8 hlt h

theorem crcByte_single_bit_ne_zero : ∀ k < 8, crcByte 0 (2 ^ k) ≠ 0 := by decide

/-- The CRC accumulator of an error pattern with a single set bit is nonzero. -/
theorem crc16core_errlist_ne_zero (j m k : Nat) (hk : k < 8) :
    crc16core (List.replicate j 0 ++ 2 ^ k :: List.replicate m 0) ≠ 0 := by
  unfold crc16core
  rw [List.foldl_append, foldl_zeros_zero, List.foldl_cons]
  exact foldl_zeros_ne_zero m (crcByte_lt 0 (2 ^ k)) (crcByte_single_bit_ne_zero k hk)

theorem zipWith_xor_zeros (l : List Nat) :
    List.zipWith (fun a b => a ^^^ b) l (List.replicate l.length 0) = l := by
  induction l with
  | nil => rfl
  | cons a l ih =>
    simp only [List.length_cons, List.replicate_succ, List.zipWith_cons_cons, Nat.xor_zero, ih]

theorem zipWith_xor_err (pre suf : List Nat) (x e : Nat) :
    List.zipWith (fun a b => a ^^^ b) (pre ++ x :: suf)
      (List.replicate pre.length 0 ++ e :: List.replicate suf.length 0) =
      pre ++ (x ^^^ e) :: suf := by
  induction pre with
  | nil =>
    simp only [List.length_nil, List.replicate, List.nil_append, List.zipWith_cons_cons]
    rw [zipWith_xor_zeros suf]
  | cons a pre ih =>
    simp only [List.length_cons, List.replicate_succ, List.cons_append, List.zipWith_cons_cons,
      Nat.xor_zero, ih]

/-- Flipping a single bit of any byte of the CRC input always changes the
16-bit CRC accumulator (single-bit error detection). -/
theorem crc16core_flip_ne (pre suf : List Nat) (x k : Nat) (hk : k < 8) (hx : x < 256)
    (hpre : ∀ b ∈ pre, b < 256) (hsuf : ∀ b ∈ suf, b < 256) :
    crc16core (pre ++ (x ^^^ 2 ^ k) :: suf) ≠ crc16core (pre ++ x :: suf) := by
  have hlen : (pre ++ x :: suf).length =
      (List.replicate pre.length 0 ++ 2 ^ k :: List.replicate suf.length 0).length := by
    simp
  have h2k : (2 : Nat) ^ k < 256 := by
    calc (2 : Nat) ^ k < 2 ^ 8 := Nat.pow_lt_pow_right (by norm_num) hk
    _ = 256 := by norm_num
  have hE : crc16core (pre ++ (x ^^^ 2 ^ k) :: suf) =
      crc16core (pre ++ x :: suf) ^^^
        crc16core (List.replicate pre.length 0 ++ 2 ^ k :: List.replicate suf.length 0) := by
    have hbs : ∀ b ∈ pre ++ x :: suf, b < 256 := by
      intro b hb
      rcases List.mem_append.mp hb with h1 | h1
      · exact hpre b h1
      · rcases List.mem_cons.mp h1 with h2 | h2
        · omega
        · exact hsuf b h2
    have hcs : ∀ c ∈ List.replicate pre.length 0 ++ 2 ^ k :: List.replicate suf.length 0,
        c < 256 := by
      intro c hc
      rcases List.mem_append.mp hc with h1 | h1
      · have := List.eq_of_mem_replicate h1
        omega
      · rcases List.mem_cons.mp h1 with h2 | h2
        · omega
        · have := List.eq_of_mem_replicate h2
          omega
    have hz := foldl_crcByte_zipXor (pre ++ x :: suf)
      (List.replicate pre.length 0 ++ 2 ^ k :: List.replicate suf.length 0) 0 0 hlen
      (by norm_num) (by norm_num) hbs hcs
    rw [zipWith_xor_err pre suf x (2 ^ k)] at hz
    unfold crc16core
    simpa using hz
  rw [hE]
  intro hcontra
  apply crc16core_errlist_ne_zero pre.length suf.length k hk
  calc crc16core (List.replicate pre.length 0 ++ 2 ^ k :: List.replicate suf.length 0) =
      crc16core (pre ++ x :: suf) ^^^ (crc16core (pre ++ x :: suf) ^^^
        crc16core (List.replicate pre.length 0 ++ 2 ^ k :: List.replicate suf.length 0)) :=
      (Nat.xor_cancel_left _ _).symm
  _ = crc16core (pre ++ x :: suf) ^^^ crc16core (pre ++ x :: suf) := by rw [hcontra]
  _ = 0 := Nat.xor_self _

/-- Flipping a single bit of any byte of the CRC input changes the emitted
2-byte CRC. -/
theorem crc16_flip_ne (pre suf : List Nat) (x k : Nat) (hk : k < 8) (hx : x < 256)
    (hpre : ∀ b ∈ pre, b < 256) (hsuf : ∀ b ∈ suf, b < 256) :
    crc16 (pre ++ (x ^^^ 2 ^ k) :: suf) ≠ crc16 (pre ++ x :: suf) := by
  unfold crc16
  intro h
  have h1 : crc16core (pre ++ (x ^^^ 2 ^ k) :: suf) / 256 = crc16core (pre ++ x :: suf) / 256 := by
    injection h
  have h2 : crc16core (pre ++ (x ^^^ 2 ^ k) :: suf) % 256 = crc16core (pre ++ x :: suf) % 256 := by
    have := h
    injection this with ha hb
    injection hb
  exact crc16core_flip_ne pre suf x k hk hx hpre hsuf (by omega)

/-! ## Frame building and validation (serial/com.go, GetCommand / checkData) -/

/-- GetCommand from serial/com.go: 2-byte ASCII header, payload, 2-byte
big-endian CRC16 over header plus payload, then a CR terminator. Go's
byte(id plus ASCII zero) truncation is modelled with mod 256. -/
def GetCommand (id : Nat) (command : List Nat) : List Nat :=
  [48, (id + 48) % 256] ++ command ++ crc16 ([48, (id + 48) % 256] ++ command) ++ [13]

/-- strings.Index(s, CRLF): first index at which a CR byte is immediately
followed by an LF byte, none when no such pair exists. -/
def findCRLF : List Nat → Option Nat
  | a :: b :: rest => if a = 13 ∧ b = 10 then some 0 else (findCRLF (b :: rest)).map (· + 1)
  | _ => none

/-- strings.Index(s, LF): first index of an LF byte. -/
def findLF : List Nat → Option Nat
  | a :: rest => if a = 10 then some 0 else (findLF rest).map (· + 1)
  | [] => none

/-- checkData from serial/com.go: validates a reply frame against the sent
command, keeping the Go error strings and check order. The two CRC bytes
are compared as a 2-element list, which agrees with Go's byte-wise compare
because crc16 always yields exactly 2 bytes. Go's sinput slice bounds are
modelled with take and drop. -/
def checkData (input cmd : List Nat) : Except String (List Nat) :=
  if input.length < 5 then Except.error "short response"
  else if ¬(input.length > 2 ∧ input.take 2 = cmd.take 2 ∧ input.get? 2 = some 124) then
    Except.error "wrong ID or missing pipe"
  else
    match (findCRLF input).orElse (fun _ => findLF input) with
    | none => Except.error "wrong format"
    | some rnPos =>
      if rnPos < 2 then Except.error "wrong format"
      else if (input.drop (rnPos - 2)).take 2 ≠ crc16 (input.take (rnPos - 2)) then
        Except.error "wrong checksum"
      else Except.ok ((input.take (rnPos - 2)).drop 3)

/-- A reply frame exactly as the specification and C8 describe it: the
command's 2-byte address, the pipe separator, the payload, the CRC16 of
all bytes preceding it, and the CR-LF terminator. -/
def mkReply (h0 h1 : Nat) (payload : List Nat) : List Nat :=
  [h0, h1, 124] ++ payload ++ crc16 ([h0, h1, 124] ++ payload) ++ [13, 10]

/-- Boolean scan: no CR byte is immediately followed by an LF byte. -/
def noCRLFb : List Nat → Bool
  | a :: b :: rest => !(a == 13 && b == 10) && noCRLFb (b :: rest)
  | _ => true

/-- No CR byte is immediately followed by an LF byte anywhere in the list. -/
def noCRLF (l : List Nat) : Prop := noCRLFb l = true

instance (l : List Nat) : Decidable (noCRLF l) :=
  inferInstanceAs (Decidable (noCRLFb l = true))

theorem findCRLF_append {pre : List Nat} (h : noCRLF pre) :
    findCRLF (pre ++ [13, 10]) = some pre.length := by
  induction pre with
  | nil => rfl
  | cons a rest ih =>
    cases rest with
    | nil =>
      show findCRLF (a :: 13 :: [10]) = some 1
      rw [findCRLF, if_neg (by omega)]
      rfl
    | cons b rest2 =>
      have h' : noCRLFb (a :: b :: rest2) = true := h
      rw [noCRLFb, Bool.and_eq_true] at h'
      obtain ⟨h1, h2⟩ := h'
      have hnab : ¬(a = 13 ∧ b = 10) := by
        intro hab
        rcases hab with ⟨ha, hb⟩
        subst ha
        subst hb
        simp at h1
      have hrest : noCRLF (b :: rest2) := h2
      simp only [List.cons_append]
      rw [findCRLF, if_neg hnab]
      rw [show b :: (rest2 ++ [13, 10]) = (b :: rest2) ++ [13, 10] from rfl]
      rw [ih hrest]
      simp [List.length_cons]

theorem crc16_length (d : List Nat) : (crc16 d).length = 2 := rfl

/-- Evaluation of checkData on a well-shaped frame: address and terminator
checks pass, and the result is decided purely by the CRC comparison. -/
theorem checkData_eval (h0 h1 : Nat) (body C cmd : List Nat)
    (hC : C.length = 2)
    (hcmd : cmd.take 2 = [h0, h1])
    (hnc : noCRLF ([h0, h1, 124] ++ body ++ C)) :
    checkData ([h0, h1, 124] ++ body ++ C ++ [13, 10]) cmd =
      if C = crc16 ([h0, h1, 124] ++ body) then Except.ok body
      else Except.error "wrong checksum" := by
  set input := [h0, h1, 124] ++ body ++ C ++ [13, 10] with hinput
  have hlen : input.length = body.length + 7 := by
    simp [hinput, List.length_append, hC]
  have h5 : ¬(input.length < 5) := by omega
  have htake2 : input.take 2 = [h0, h1] := by
    simp [hinput, List.take]
  have hget2 : input.get? 2 = some 124 := by
    simp [hinput]
  have hpre : input = ([h0, h1, 124] ++ body ++ C) ++ [13, 10] := by
    simp [hinput, List.append_assoc]
  have hprelen : ([h0, h1, 124] ++ body ++ C).length = body.length + 5 := by
    simp [List.length_append, hC]
  have hfind : findCRLF input = some (body.length + 5) := by
    rw [hpre, findCRLF_append hnc, hprelen]
  have horelse : (findCRLF input).orElse (fun _ => findLF input) = some (body.length + 5) := by
    rw [hfind]
    rfl
  have hlen3 : ([h0, h1, 124] ++ body).length = body.length + 3 := by
    simp [List.length_append]
  have hdrop : input.drop (body.length + 3) = C ++ [13, 10] := by
    have h1' : input = ([h0, h1, 124] ++ body) ++ (C ++ [13, 10]) := by
      simp [hinput, List.append_assoc]
    rw [h1', List.drop_left' hlen3]
  have htake3 : input.take (body.length + 3) = [h0, h1, 124] ++ body := by
    have h1' : input = ([h0, h1, 124] ++ body) ++ (C ++ [13, 10]) := by
      simp [hinput, List.append_assoc]
    rw [h1', List.take_left' hlen3]
  have hrecv : (C ++ [13, 10]).take 2 = C := List.take_left' hC
  rw [checkData]
  rw [if_neg h5]
  rw [if_neg (not_not_intro ⟨by omega, htake2.trans hcmd.symm, hget2⟩)]
  rw [horelse]
  have harith : body.length + 5 - 2 = body.length + 3 := by omega
  simp only [harith]
  rw [if_neg (show ¬(body.length + 5 < 2) by omega)]
  rw [hdrop, hrecv, htake3]
  by_cases hceq : C = crc16 ([h0, h1, 124] ++ body)
  · rw [if_neg (not_not_intro hceq), if_pos hceq]
    rw [show ([h0, h1, 124] ++ body).drop 3 = body from rfl]
  · rw [if_pos hceq, if_neg hceq]

/-- C8 (counterexample): the claimed CRC16 round-trip fails as stated.
First, a reply frame built exactly as the claim prescribes (CRC field =
crc16 of the bytes preceding it) around the payload CR LF is rejected by
checkData, refuting the universally quantified success half. Second, the
valid frame around payload 76 26 13 11 turns, after flipping the single
lowest bit of the payload byte 11 (frame index 6, 11 XOR 2^0 = 10), into a
frame that checkData accepts with an empty payload, refuting the claim
that every single-bit payload flip makes CRC validation fail. -/
theorem checkData_roundtrip_counterexample :
    checkData (mkReply 48 49 [13, 10]) (GetCommand 1 [86]) = Except.error "wrong checksum" ∧
    checkData (mkReply 48 49 [76, 26, 13, 11]) (GetCommand 1 [86]) =
      Except.ok [76, 26, 13, 11] ∧
    mkReply 48 49 [76, 26, 13, 11] = [48, 49, 124, 76, 26, 13, 11, 199, 55, 13, 10] ∧
    (11 : Nat) ^^^ 2 ^ 0 = 10 ∧
    checkData [48, 49, 124, 76, 26, 13, 10, 199, 55, 13, 10] (GetCommand 1 [86]) =
      Except.ok [] :=
  ⟨rfl, rfl, rfl, rfl, rfl⟩

/-- C8 (amended): CRC16 round-trip restricted to frames without an early
CR-LF pair. For every payload whose framed pre-terminator bytes contain no
CR-LF pair, validating the frame built with crc16 of the preceding bytes
succeeds and yields the payload; and flipping any single bit of any payload
byte, provided the flipped pre-terminator bytes still contain no CR-LF
pair, makes checkData fail with the checksum error. -/
theorem checkData_roundtrip_amended (h0 h1 : Nat) (payload cmd : List Nat)
    (hcmd : cmd.take 2 = [h0, h1])
    (hnc : noCRLF ([h0, h1, 124] ++ payload ++ crc16 ([h0, h1, 124] ++ payload))) :
    checkData (mkReply h0 h1 payload) cmd = Except.ok payload ∧
    (∀ (p1 p2 : List Nat) (x k : Nat), payload = p1 ++ x :: p2 → k < 8 →
      h0 < 256 → h1 < 256 → x < 256 → (∀ b ∈ p1, b < 256) → (∀ b ∈ p2, b < 256) →
      noCRLF ([h0, h1, 124] ++ (p1 ++ (x ^^^ 2 ^ k) :: p2) ++
        crc16 ([h0, h1, 124] ++ payload)) →
      checkData ([h0, h1, 124] ++ (p1 ++ (x ^^^ 2 ^ k) :: p2) ++
        crc16 ([h0, h1, 124] ++ payload) ++ [13, 10]) cmd = Except.error "wrong checksum") := by
  constructor
  · have heval := checkData_eval h0 h1 payload (crc16 ([h0, h1, 124] ++ payload)) cmd
      (crc16_length _) hcmd hnc
    rw [show mkReply h0 h1 payload =
      [h0, h1, 124] ++ payload ++ crc16 ([h0, h1, 124] ++ payload) ++ [13, 10] from rfl]
    rw [heval, if_pos rfl]
  · intro p1 p2 x k hp hk hh0 hh1 hx hp1 hp2 hnc2
    have heval := checkData_eval h0 h1 (p1 ++ (x ^^^ 2 ^ k) :: p2)
      (crc16 ([h0, h1, 124] ++ payload)) cmd (crc16_length _) hcmd hnc2
    rw [heval]
    have hassoc1 : [h0, h1, 124] ++ (p1 ++ x :: p2) = ([h0, h1, 124] ++ p1) ++ x :: p2 := by
      simp [List.append_assoc]
    have hassoc2 : [h0, h1, 124] ++ (p1 ++ (x ^^^ 2 ^ k) :: p2) =
        ([h0, h1, 124] ++ p1) ++ (x ^^^ 2 ^ k) :: p2 := by
      simp [List.append_assoc]
    have hprebytes : ∀ b ∈ [h0, h1, 124] ++ p1, b < 256 := by
      intro b hb
      rcases List.mem_append.mp hb with h1' | h1'
      · rcases List.mem_cons.mp h1' with h2 | h2
        · omega
        · rcases List.mem_cons.mp h2 with h3 | h3
          · omega
          · rcases List.mem_cons.mp h3 with h4 | h4
            · omega
            · simp at h4
      · exact hp1 b h1'
    have hne := crc16_flip_ne ([h0, h1, 124] ++ p1) p2 x k hk hx hprebytes hp2
    rw [hp, hassoc1, hassoc2]
    rw [if_neg (Ne.symm hne)]

/-- Witness for the amended C8 theorem at a concrete frame, exercising both
the successful round-trip and the detected single-bit flip. -/
theorem checkData_roundtrip_amended_witness :
    checkData (mkReply 48 49 [65, 66]) (GetCommand 1 [86]) = Except.ok [65, 66] ∧
    checkData ([48, 49, 124] ++ ([65] ++ (66 ^^^ 2 ^ 0) :: []) ++
      crc16 ([48, 49, 124] ++ [65, 66]) ++ [13, 10]) (GetCommand 1 [86]) =
      Except.error "wrong checksum" := by
  have h := checkData_roundtrip_amended 48 49 [65, 66] (GetCommand 1 [86]) (by decide) (by decide)
  exact ⟨h.1, h.2 [65] [] 66 0 rfl (by decide) (by decide) (by decide) (by decide)
    (by decide) (by decide) (by decide)⟩

/-! ## ADC value parsing (serial/com.go parseValues, Leo485 GetADs variants) -/

/-- One byte is an ASCII decimal digit. -/
def isDigit (b : Nat) : Bool := 48 ≤ b && b ≤ 57

/-- Numeric value of an ASCII digit string, most significant digit first. -/
def digitsVal (s : List Nat) : Nat := s.foldl (fun acc b => acc * 10 + (b - 48)) 0

/-- strconv.ParseUint(field, 10, 64) as parseValues uses it, with the error
discarded: a syntactically invalid numeral (empty, or containing a
non-digit byte) yields 0, since Go returns 0 together with the discarded
syntax error; a numeral exceeding 2^64 - 1 yields the clamped maximum,
which Go returns together with the discarded range error. -/
def parseUintValue (s : List Nat) : Nat :=
  if s.isEmpty then 0
  else if s.all isDigit then
    if digitsVal s < 2 ^ 64 then digitsVal s else 2 ^ 64 - 1
  else 0

/-- parseValues from serial/com.go: validate the reply with checkData, split
the payload on pipe bytes, and keep each field whose index is selected by
the lcs bitmask (lcs is a byte) paired with its parsed reading. -/
def parseValues (input cmd : List Nat) (lcs : Nat) :
    Except String (List (Nat × Nat)) :=
  match checkData input cmd with
  | Except.error e => Except.error e
  | Except.ok data =>
    Except.ok (((data.splitOn 124).enum.filter (fun p => (lcs % 256).testBit p.1)).map
      (fun p => (p.1, parseUintValue p.2)))

/-- GetADsWithTimeout from the Leo485 driver (tolerant path), modelled over
the raw response already delivered by the transport: transport errors
propagate, an empty response yields an empty OK result, and any
validation or parse failure is swallowed into an empty OK result. -/
def GetADsWithTimeout (response : Except String (List Nat)) (cmd : List Nat) (lcs : Nat) :
    Except String (List Nat) :=
  match response with
  | Except.error e => Except.error e
  | Except.ok r =>
    if r.isEmpty then Except.ok []
    else
      match parseValues r cmd lcs with
      | Except.error _ => Except.ok []
      | Except.ok vals => Except.ok (vals.map (fun p => p.2))

/-- GetADsStrictWithTimeout from the Leo485 driver (strict path): like the
tolerant variant but an empty response or a validation failure surfaces
as an error instead of an empty result. -/
def GetADsStrictWithTimeout (response : Except String (List Nat)) (cmd : List Nat) (lcs : Nat) :
    Except String (List Nat) :=
  match response with
  | Except.error e => Except.error e
  | Except.ok r =>
    if r.isEmpty then Except.error "empty response"
    else
      match parseValues r cmd lcs with
      | Except.error e => Except.error e
      | Except.ok vals => Except.ok (vals.map (fun p => p.2))

theorem parseUintValue_invalid {s : List Nat}
    (h : ¬(s ≠ [] ∧ s.all isDigit = true)) : parseUintValue s = 0 := by
  unfold parseUintValue
  by_cases he : s.isEmpty
  · rw [if_pos he]
  · rw [if_neg he]
    have hne : s ≠ [] := by
      intro hc
      subst hc
      exact he rfl
    have hnd : ¬(s.all isDigit = true) := fun hd => h ⟨hne, hd⟩
    rw [if_neg hnd]

/-- C9: when a reply frame passes address and CRC validation, every
pipe-delimited field selected by the LCS bitmask that is not a valid
unsigned decimal numeral is reported as the reading 0 with no error, on
the tolerant and the strict ADC read path alike. -/
theorem parseValues_invalid_field_is_zero (h0 h1 : Nat) (fields : List (List Nat))
    (cmd : List Nat) (lcs i : Nat)
    (hcmd : cmd.take 2 = [h0, h1])
    (hnc : noCRLF ([h0, h1, 124] ++ List.intercalate [124] fields ++
      crc16 ([h0, h1, 124] ++ List.intercalate [124] fields)))
    (hfields : fields ≠ [])
    (hnopipe : ∀ f ∈ fields, 124 ∉ f)
    (hi : i < fields.length)
    (hsel : (lcs % 256).testBit i = true)
    (hbad : ¬(fields.get ⟨i, hi⟩ ≠ [] ∧ (fields.get ⟨i, hi⟩).all isDigit = true)) :
    ∃ vals, parseValues (mkReply h0 h1 (List.intercalate [124] fields)) cmd lcs =
        Except.ok vals ∧
      (i, 0) ∈ vals ∧
      GetADsStrictWithTimeout (Except.ok (mkReply h0 h1 (List.intercalate [124] fields)))
        cmd lcs = Except.ok (vals.map (fun p => p.2)) ∧
      GetADsWithTimeout (Except.ok (mkReply h0 h1 (List.intercalate [124] fields)))
        cmd lcs = Except.ok (vals.map (fun p => p.2)) := by
  set payload := List.intercalate [124] fields with hpayload
  have hcheck : checkData (mkReply h0 h1 payload) cmd = Except.ok payload := by
    have heval := checkData_eval h0 h1 payload (crc16 ([h0, h1, 124] ++ payload)) cmd
      (crc16_length _) hcmd hnc
    rw [show mkReply h0 h1 payload =
      [h0, h1, 124] ++ payload ++ crc16 ([h0, h1, 124] ++ payload) ++ [13, 10] from rfl]
    rw [heval, if_pos rfl]
  have hsplit : List.splitOn 124 payload = fields := by
    rw [hpayload]
    exact List.splitOn_intercalate fields 124 hnopipe hfields
  have hpv : parseValues (mkReply h0 h1 payload) cmd lcs =
      Except.ok (((List.splitOn 124 payload).enum.filter
        (fun p => (lcs % 256).testBit p.1)).map
        (fun p => (p.1, parseUintValue p.2))) := by
    unfold parseValues
    rw [hcheck]
  rw [hsplit] at hpv
  refine ⟨_, hpv, ?_, ?_, ?_⟩
  · have hmem : (i, fields.get ⟨i, hi⟩) ∈ fields.enum := by
      rw [List.mk_mem_enum_iff_getElem?]
      simp [List.getElem?_eq_getElem hi]
    have hmemf : (i, fields.get ⟨i, hi⟩) ∈
        fields.enum.filter (fun p => (lcs % 256).testBit p.1) :=
      List.mem_filter.mpr ⟨hmem, hsel⟩
    refine List.mem_map.mpr ⟨(i, fields.get ⟨i, hi⟩), hmemf, ?_⟩
    show (i, parseUintValue (fields.get ⟨i, hi⟩)) = (i, 0)
    rw [parseUintValue_invalid hbad]
  · have hred : GetADsStrictWithTimeout (Except.ok (mkReply h0 h1 payload)) cmd lcs =
        match parseValues (mkReply h0 h1 payload) cmd lcs with
        | Except.error e => Except.error e
        | Except.ok vals => Except.ok (vals.map (fun p => p.2)) := rfl
    rw [hred, hpv]
  · have hred : GetADsWithTimeout (Except.ok (mkReply h0 h1 payload)) cmd lcs =
        match parseValues (mkReply h0 h1 payload) cmd lcs with
        | Except.error _ => Except.ok []
        | Except.ok vals => Except.ok (vals.map (fun p => p.2)) := rfl
    rw [hred, hpv]

/-- Witness for C9 at a concrete frame: fields 12 and x, both selected,
the second field non-numeric and reported as 0 with both variants OK. -/
theorem parseValues_invalid_field_is_zero_witness :
    ∃ vals, parseValues (mkReply 48 49 (List.intercalate [124] [[49, 50], [120]]))
        (GetCommand 1 [86]) 3 = Except.ok vals ∧
      (1, 0) ∈ vals ∧
      GetADsStrictWithTimeout
        (Except.ok (mkReply 48 49 (List.intercalate [124] [[49, 50], [120]])))
        (GetCommand 1 [86]) 3 = Except.ok (vals.map (fun p => p.2)) ∧
      GetADsWithTimeout
        (Except.ok (mkReply 48 49 (List.intercalate [124] [[49, 50], [120]])))
        (GetCommand 1 [86]) 3 = Except.ok (vals.map (fun p => p.2)) :=
  parseValues_invalid_field_is_zero 48 49 [[49, 50], [120]] (GetCommand 1 [86]) 3 1
    (by decide) (by decide) (by decide) (by decide) (by decide) (by decide) (by decide)

/-! ## Matrix and Vector (matrix/matrix.go) -/

/-- The result of a Go operation: a value, the deliberate nil result Go
returns on a failed check, or a runtime panic (index out of range). -/
inductive GoResult (α : Type) where
  | ok (a : α)
  | nil
  | panic
deriving DecidableEq

/-- Dense row-major float64 matrix from matrix/matrix.go; entries are
modelled as exact rationals because every claim about these operations
concerns shapes and definedness, not rounding. -/
structure GoMatrix where
  Rows : Nat
  Cols : Nat
  Values : List (List ℚ)
deriving DecidableEq

/-- Dense float64 vector from matrix/matrix.go. -/
structure GoVector where
  Length : Nat
  Values : List ℚ
deriving DecidableEq

/-- NewMatrix: rows x cols, zero-filled. -/
def NewMatrix (rows cols : Nat) : GoMatrix :=
  ⟨rows, cols, List.replicate rows (List.replicate cols 0)⟩

/-- NewVector: length zeros. -/
def NewVector (length : Nat) : GoVector := ⟨length, List.replicate length 0⟩

/-- NewVectorWithValue: length copies of val. -/
def NewVectorWithValue (length : Nat) (val : ℚ) : GoVector :=
  ⟨length, List.replicate length val⟩

/-- One row of Matrix.Sub: Go iterates j over range of the left row and
reads other.Values[i][j]; running past the end of the right row is an
index-out-of-range panic, modelled as none. -/
def subRow : List ℚ → List ℚ → Option (List ℚ)
  | [], _ => some []
  | a :: as, b :: bs => (subRow as bs).map (fun l => (a - b) :: l)
  | _ :: _, [] => none

/-- Row list of Matrix.Sub: Go iterates i over range m.Values and reads
other.Values[i]; a missing row on the right is a panic (none). -/
def subRows : List (List ℚ) → List (List ℚ) → Option (List (List ℚ))
  | [], _ => some []
  | r :: rs, o :: os =>
    match subRow r o with
    | some r2 => (subRows rs os).map (fun l => r2 :: l)
    | none => none
  | _ :: _ :: _, [] => none
  | [_], [] => none

/-- Matrix.Sub from matrix/matrix.go: element-wise subtraction over the
left operand's index ranges, with NO shape check; reading past the right
operand's bounds is a Go runtime panic. The result keeps the left
operand's declared shape (Go writes into NewMatrix(m.Rows, m.Cols)). -/
def GoMatrix.Sub (m other : GoMatrix) : GoResult GoMatrix :=
  match subRows m.Values other.Values with
  | some vals => GoResult.ok ⟨m.Rows, m.Cols, vals⟩
  | none => GoResult.panic

/-- Vector.Sub from matrix/matrix.go: element-wise subtraction over the
left operand's index range, with NO length check; its own documentation
says the caller must ensure equal lengths, and a shorter right operand
panics. -/
def GoVector.Sub (v other : GoVector) : GoResult GoVector :=
  match subRow v.Values other.Values with
  | some vals => GoResult.ok ⟨v.Length, vals⟩
  | none => GoResult.panic

/-- Matrix.MulVector from matrix/matrix.go: returns nil when m.Cols is not
v.Length (the checked, recoverable path), otherwise the row-by-row dot
product; reads outside the stored values (possible only for matrices
whose Values do not match their declared shape) are a panic. -/
def GoMatrix.MulVector (m : GoMatrix) (v : GoVector) : GoResult GoVector :=
  if m.Cols ≠ v.Length then GoResult.nil
  else
    match (List.range m.Rows).mapM (fun i =>
      (List.range m.Cols).mapM (fun k =>
        ((m.Values.get? i).bind (fun row => row.get? k)).bind (fun a =>
          (v.Values.get? k).map (fun b => a * b)))) with
    | some rowProducts => GoResult.ok ⟨m.Rows, rowProducts.map (fun l => l.sum)⟩
    | none => GoResult.panic

theorem subRow_none_of_shorter :
    ∀ (r o : List ℚ), o.length < r.length → subRow r o = none := by
  intro r
  induction r with
  | nil => intro o h; simp at h
  | cons a as ih =>
    intro o h
    cases o with
    | nil => rfl
    | cons b bs =>
      rw [subRow, ih bs (by simpa using h)]
      rfl

theorem subRows_none_of_fewer_rows :
    ∀ (rs os : List (List ℚ)), os.length < rs.length → subRows rs os = none := by
  intro rs
  induction rs with
  | nil => intro os h; simp at h
  | cons r rs2 ih =>
    intro os h
    cases os with
    | nil =>
      cases rs2 with
      | nil => rfl
      | cons a b => rfl
    | cons o os2 =>
      rw [subRows]
      cases hsr : subRow r o with
      | none => rfl
      | some r2 =>
        rw [ih os2 (by simpa using h)]
        rfl

/-- C6 (counterexample): the binary subtraction operations perform no shape
check. Subtracting a 0 x 0 matrix from a 1 x 1 matrix is an index
out-of-range panic, not a recoverable nil or error result, and likewise
for vectors; only MulVector yields the recoverable nil. -/
theorem matrix_sub_shape_counterexample :
    GoMatrix.Sub ⟨1, 1, [[0]]⟩ ⟨0, 0, []⟩ = GoResult.panic ∧
    GoMatrix.Sub ⟨1, 1, [[0]]⟩ ⟨0, 0, []⟩ ≠ GoResult.nil ∧
    GoVector.Sub ⟨1, [0]⟩ ⟨0, []⟩ = GoResult.panic ∧
    GoVector.Sub ⟨1, [0]⟩ ⟨0, []⟩ ≠ GoResult.nil ∧
    GoMatrix.MulVector ⟨1, 1, [[0]]⟩ ⟨2, [0, 0]⟩ = GoResult.nil := by
  refine ⟨rfl, by decide, rfl, by decide, rfl⟩

/-- C6 (amended): of the binary Matrix/Vector operations, only MulVector
checks the shape invariant of its operands and yields the recoverable nil
result on every mismatch; element-wise subtraction performs no check, and
whenever the right operand has fewer rows than the left it crashes with an
index out-of-range panic instead of yielding a recoverable result. -/
theorem matrix_shape_checks_amended :
    (∀ (m : GoMatrix) (v : GoVector), m.Cols ≠ v.Length →
      GoMatrix.MulVector m v = GoResult.nil) ∧
    (∀ m other : GoMatrix, other.Values.length < m.Values.length →
      GoMatrix.Sub m other = GoResult.panic) ∧
    (∀ v other : GoVector, other.Values.length < v.Values.length →
      GoVector.Sub v other = GoResult.panic) := by
  refine ⟨?_, ?_, ?_⟩
  · intro m v h
    unfold GoMatrix.MulVector
    rw [if_pos h]
  · intro m other h
    unfold GoMatrix.Sub
    rw [subRows_none_of_fewer_rows m.Values other.Values h]
  · intro v other h
    unfold GoVector.Sub
    rw [subRow_none_of_shorter v.Values other.Values h]

/-- Witness for the amended C6 theorem at concrete shapes. -/
theorem matrix_shape_checks_amended_witness :
    GoMatrix.MulVector ⟨2, 3, [[1, 2, 3], [4, 5, 6]]⟩ ⟨2, [1, 1]⟩ = GoResult.nil ∧
    GoMatrix.Sub ⟨2, 2, [[1, 2], [3, 4]]⟩ ⟨1, 2, [[1, 2]]⟩ = GoResult.panic ∧
    GoVector.Sub ⟨2, [1, 2]⟩ ⟨1, [5]⟩ = GoResult.panic :=
  ⟨matrix_shape_checks_amended.1 ⟨2, 3, [[1, 2, 3], [4, 5, 6]]⟩ ⟨2, [1, 1]⟩ (by decide),
   matrix_shape_checks_amended.2.1 ⟨2, 2, [[1, 2], [3, 4]]⟩ ⟨1, 2, [[1, 2]]⟩ (by decide),
   matrix_shape_checks_amended.2.2 ⟨2, [1, 2]⟩ ⟨1, [5]⟩ (by decide)⟩

/-! ## Calibration plan (weightCalibration in calibration/calibration.go and
the web plan used by internal/server) -/

/-- Calibration step kinds. -/
inductive CalStepKind where
  | zero
  | weight
deriving DecidableEq

/-- One planned calibration step: its kind and, for weight steps, the row
index it fills in the accumulation matrix. -/
structure CalStep where
  kind : CalStepKind
  index : Nat
deriving DecidableEq

/-- Modelled from the spec: buildCalibrationPlan lives in
internal/server/logic.go, which is not among the provided sources (only
its callers in the server handlers and the walkthrough describe it).
Following the specification and walkthrough: the ordered plan is one Zero
step followed by the 3 x (NumBars - 1) x NumLoadCellsPerBar weight
placements (Bay x Side x FrontBack, bay count tied to bar count), each
weight step carrying its accumulation-row index, matching the loop count
of weightCalibration in calibration/calibration.go. -/
def buildCalibrationPlan (nbars nlcs : Nat) : List CalStep :=
  ⟨CalStepKind.zero, 0⟩ ::
    (List.range (3 * (nbars - 1) * nlcs)).map (fun i => ⟨CalStepKind.weight, i⟩)

/-- nloads from weightCalibration in calibration/calibration.go:
3 * (len(parameters.BARS) - 1) * bars.NLCs weight samplings. -/
def nloads (nbars nlcs : Nat) : Nat := 3 * (nbars - 1) * nlcs

/-- The weight accumulation matrix allocated by weightCalibration:
matrix.NewMatrix(nloads, nbars*nlcs). -/
def weightCalibrationAdv (nbars nlcs : Nat) : GoMatrix :=
  NewMatrix (nloads nbars nlcs) (nbars * nlcs)

/-- Total CLI calibration sampling steps: the one zero sampling of
zeroCalibration followed by the nloads iterations of weightCalibration. -/
def cliCalibrationStepCount (nbars nlcs : Nat) : Nat := 1 + nloads nbars nlcs

/-- C2 (counterexample): for 2 bars with 2 active channels each the code
performs 1 + 3 * (2-1) * 2 = 7 sampling steps, not the 1 + 3 * 1 = 4 steps
the claim computes; the claimed formula only matches when each bar has one
load cell. -/
theorem plan_length_counterexample :
    cliCalibrationStepCount 2 2 = 7 ∧
    (buildCalibrationPlan 2 2).length = 7 ∧
    1 + 3 * (2 - 1) = 4 ∧
    (7 : Nat) ≠ 4 := by decide

/-- C2 (amended): for N bars with nlcs active load cells per bar, the plan
has exactly 1 + 3 (N-1) nlcs steps; the step at index 0 is always the
Zero step; and the claimed count 1 + 3 (N-1) holds exactly in the
single-load-cell case nlcs = 1. -/
theorem plan_length_amended (nbars nlcs : Nat) :
    (buildCalibrationPlan nbars nlcs).length = 1 + 3 * (nbars - 1) * nlcs ∧
    (buildCalibrationPlan nbars nlcs).head? = some ⟨CalStepKind.zero, 0⟩ ∧
    (nlcs = 1 → (buildCalibrationPlan nbars nlcs).length = 1 + 3 * (nbars - 1)) := by
  refine ⟨?_, rfl, ?_⟩
  · simp [buildCalibrationPlan]
    omega
  · intro h
    subst h
    simp [buildCalibrationPlan]
    omega

/-- Witness for the amended C2 theorem: 2 bars, one load cell each. -/
theorem plan_length_amended_witness :
    (buildCalibrationPlan 2 1).length = 1 + 3 * (2 - 1) :=
  (plan_length_amended 2 1).2.2 rfl

/-- C3: for every session with NumBars bars of NumLoadCellsPerBar active
load cells, the ordered plan is exactly 1 + 3 (NumBars-1) NumLoadCellsPerBar
steps, one zero step first followed only by weight steps, and the adv
accumulation matrix is allocated with exactly 3 (NumBars-1) NumLoadCellsPerBar
rows. -/
theorem plan_and_adv_shape (nbars nlcs : Nat) :
    (buildCalibrationPlan nbars nlcs).length = 1 + 3 * (nbars - 1) * nlcs ∧
    (buildCalibrationPlan nbars nlcs).head? = some ⟨CalStepKind.zero, 0⟩ ∧
    (∀ step ∈ (buildCalibrationPlan nbars nlcs).tail, step.kind = CalStepKind.weight) ∧
    (weightCalibrationAdv nbars nlcs).Rows = 3 * (nbars - 1) * nlcs ∧
    (weightCalibrationAdv nbars nlcs).Values.length = 3 * (nbars - 1) * nlcs := by
  refine ⟨?_, rfl, ?_, rfl, ?_⟩
  · simp [buildCalibrationPlan]
    omega
  · intro step hstep
    simp only [buildCalibrationPlan, List.tail_cons, List.mem_map] at hstep
    obtain ⟨i, _, hstepeq⟩ := hstep
    rw [← hstepeq]
  · simp [weightCalibrationAdv, NewMatrix, nloads]

/-! ## DeviceSession operation ownership (internal/server handlers) -/

/-- The operation fields of the web DeviceSession: whether a cancellable
operation context is installed (opCancel non-nil in Go) and the string tag
of the running operation (empty = idle). -/
structure SessionOpState where
  opCancel : Bool
  opKind : String
deriving DecidableEq

/-- cancelLocked from the DeviceSession: when a cancel function is
installed it is invoked and both fields are cleared; the Bool records
whether a running operation was actually cancelled. -/
def cancelLocked (s : SessionOpState) : SessionOpState × Bool :=
  if s.opCancel then (⟨false, ""⟩, true) else (s, false)

/-- Outcome of an operation-start request: the resulting state, whether a
previously running operation was cancelled first, and whether the new
operation actually started (false means the handler answered busy). -/
structure StartOutcome where
  state : SessionOpState
  cancelledPrevious : Bool
  started : Bool
deriving DecidableEq

/-- handleCalStartStep: cancelLocked, then install the calibrationSampling
operation. -/
def startCalStartStep (s : SessionOpState) : StartOutcome :=
  ⟨⟨true, "calibrationSampling"⟩, (cancelLocked s).2, true⟩

/-- handleTestStart: cancelLocked, then install the test operation. -/
def startTest (s : SessionOpState) : StartOutcome :=
  ⟨⟨true, "test"⟩, (cancelLocked s).2, true⟩

/-- handleFlashStart: cancelLocked, then install the flash operation. -/
def startFlash (s : SessionOpState) : StartOutcome :=
  ⟨⟨true, "flash"⟩, (cancelLocked s).2, true⟩

/-- handleCalFlash: when any operation is active it answers busy and
cancels nothing; only from idle does it install calibrationFlash. -/
def startCalFlash (s : SessionOpState) : StartOutcome :=
  if s.opKind ≠ "" then ⟨s, false, false⟩
  else ⟨⟨true, "calibrationFlash"⟩, false, true⟩

/-- C5 (counterexample): requesting the calibration-flash operation while
the test operation is active does NOT cancel the running operation: the
handler answers busy, the test operation stays active, and nothing was
cancelled, refuting the claim that starting any new operation always
cancels the running one before proceeding. -/
theorem session_start_cancel_counterexample :
    startCalFlash ⟨true, "test"⟩ = ⟨⟨true, "test"⟩, false, false⟩ ∧
    (startCalFlash ⟨true, "test"⟩).cancelledPrevious = false ∧
    (startCalFlash ⟨true, "test"⟩).state.opKind = "test" := by
  refine ⟨rfl, rfl, rfl⟩

/-- C5 (amended): the sampling-step, test and flash starters always cancel
any running operation before installing the new one, while the
calibration-flash starter never cancels: it refuses (busy, state
unchanged) whenever an operation is active and starts only from idle. In
every case at most one operation is active afterwards and a newly started
operation never runs alongside the previous one. -/
theorem session_single_owner_amended (s : SessionOpState) :
    ((startCalStartStep s).cancelledPrevious = s.opCancel ∧
      (startCalStartStep s).state = ⟨true, "calibrationSampling"⟩ ∧
      (startCalStartStep s).started = true) ∧
    ((startTest s).cancelledPrevious = s.opCancel ∧
      (startTest s).state = ⟨true, "test"⟩ ∧
      (startTest s).started = true) ∧
    ((startFlash s).cancelledPrevious = s.opCancel ∧
      (startFlash s).state = ⟨true, "flash"⟩ ∧
      (startFlash s).started = true) ∧
    (s.opKind ≠ "" → startCalFlash s = ⟨s, false, false⟩) ∧
    (s.opKind = "" → startCalFlash s = ⟨⟨true, "calibrationFlash"⟩, false, true⟩) := by
  refine ⟨⟨?_, rfl, rfl⟩, ⟨?_, rfl, rfl⟩, ⟨?_, rfl, rfl⟩, ?_, ?_⟩
  · unfold startCalStartStep cancelLocked
    cases h : s.opCancel <;> simp
  · unfold startTest cancelLocked
    cases h : s.opCancel <;> simp
  · unfold startFlash cancelLocked
    cases h : s.opCancel <;> simp
  · intro h
    unfold startCalFlash
    rw [if_pos h]
  · intro h
    unfold startCalFlash
    rw [if_neg (by simp [h])]

/-- Witness for the amended C5 theorem at a concrete active state. -/
theorem session_single_owner_amended_witness :
    (startCalStartStep ⟨true, "test"⟩).cancelledPrevious = true ∧
    startCalFlash ⟨true, "test"⟩ = ⟨⟨true, "test"⟩, false, false⟩ ∧
    startCalFlash ⟨false, ""⟩ = ⟨⟨true, "calibrationFlash"⟩, false, true⟩ :=
  ⟨(session_single_owner_amended ⟨true, "test"⟩).1.1,
   (session_single_owner_amended ⟨true, "test"⟩).2.2.2.1 (by decide),
   (session_single_owner_amended ⟨false, ""⟩).2.2.2.2 rfl⟩

/-! ## Calibration accumulation across steps (handleCalStartStep and
handleCalCompute in the web server) -/

/-- updateMatrixZero from calibration/calibration.go (also used by the web
handler): the flattened zero readings become one row, truncated by SetRow
to the row width nbars*nlcs (nbars = len(ads)/nlcs), replicated across all
calibs*nlcs calibration rows. -/
def updateMatrixZero (ads : List ℚ) (calibs nlcs : Nat) : GoMatrix :=
  ⟨calibs * nlcs, ads.length / nlcs * nlcs,
    List.replicate (calibs * nlcs) (ads.take (ads.length / nlcs * nlcs))⟩

/-- updateMatrixWeight from calibration/calibration.go: writes the first
(len(ads)/nlcs)*nlcs flattened readings into row index of the
accumulation matrix, leaving every other row untouched. -/
def updateMatrixWeight (adc : GoMatrix) (ads : List ℚ) (index nlcs : Nat) : GoMatrix :=
  ⟨adc.Rows, adc.Cols,
    adc.Values.enum.map (fun p =>
      if p.1 = index then ads.take (ads.length / nlcs * nlcs) ++ p.2.drop (ads.length / nlcs * nlcs)
      else p.2)⟩

/-- The calibration accumulation fields of the web DeviceSession. -/
structure CalSessionState where
  calReceived : Nat
  calSteps : List CalStep
  calNLoads : Nat
  calAd0 : Option GoMatrix
  calAdv : Option GoMatrix
deriving DecidableEq

/-- The reset block of handleCalStartStep: at step index 0 the accumulation
state is cleared, the plan stored and the received-step counter zeroed. -/
def resetAtStepZero (st : CalSessionState) (stepIndex : Nat) (nbars nlcs : Nat) :
    CalSessionState :=
  if stepIndex = 0 then
    ⟨0, buildCalibrationPlan nbars nlcs, nloads nbars nlcs, none, none⟩
  else st

/-- The completion block of handleCalStartStep: a zero step installs a
fresh ad0 and a zeroed adv; a weight step writes its row into adv when adv
exists. -/
def applyStepSample (st : CalSessionState) (step : CalStep) (flat : List ℚ)
    (nbars nlcs : Nat) : CalSessionState :=
  if step.kind = CalStepKind.zero then
    { st with calAd0 := some (updateMatrixZero flat (3 * (nbars - 1)) nlcs),
              calAdv := some (NewMatrix (nloads nbars nlcs) (nbars * nlcs)) }
  else
    match st.calAdv with
    | some adv => { st with calAdv := some (updateMatrixWeight adv flat step.index nlcs) }
    | none => st

/-- One completed startStep sampling operation on the session, for an
in-bounds step index: reset at index 0, store the sampled readings, then
increment the received-step counter. -/
def handleCalStartStepCompleted (st : CalSessionState) (stepIndex : Nat) (flat : List ℚ)
    (nbars nlcs : Nat) : CalSessionState :=
  let st1 := resetAtStepZero st stepIndex nbars nlcs
  let step := ((buildCalibrationPlan nbars nlcs).get? stepIndex).getD ⟨CalStepKind.weight, 0⟩
  let st2 := applyStepSample st1 step flat nbars nlcs
  { st2 with calReceived := st2.calReceived + 1 }

/-- The completeness precondition of handleCalCompute: the received-step
counter must equal the stored plan length, the plan must be nonempty and
both accumulation matrices must exist. -/
def computeAllowed (st : CalSessionState) : Bool :=
  decide (st.calReceived = st.calSteps.length) && !st.calSteps.isEmpty &&
    st.calAd0.isSome && st.calAdv.isSome

/-- A session trace for 2 bars with 1 load cell each that samples step 0
once and then weight step 1 three times. -/
def repeatStepTrace : CalSessionState :=
  handleCalStartStepCompleted
    (handleCalStartStepCompleted
      (handleCalStartStepCompleted
        (handleCalStartStepCompleted ⟨0, [], 0, none, none⟩ 0 [7, 9] 2 1)
        1 [8, 9] 2 1)
      1 [8, 9] 2 1)
    1 [8, 9] 2 1

theorem applyStepSample_calReceived (st : CalSessionState) (step : CalStep) (flat : List ℚ)
    (nbars nlcs : Nat) :
    (applyStepSample st step flat nbars nlcs).calReceived = st.calReceived := by
  unfold applyStepSample
  by_cases h : step.kind = CalStepKind.zero
  · rw [if_pos h]
  · rw [if_neg h]
    cases st.calAdv <;> rfl

/-- C10: the received-step counter increments by exactly one for each
completed startStep sampling operation regardless of which in-bounds step
index was sampled (index 0 first resets the counter to zero), and the
compute precondition, which compares only this counter to the plan
length, is satisfied by the trace that samples weight step 1 repeatedly,
while adv rows 1 and 2 were never written and remain zero. -/
theorem calReceived_counts_steps_only :
    (∀ (st : CalSessionState) (i : Nat) (flat : List ℚ) (nbars nlcs : Nat),
      i < (buildCalibrationPlan nbars nlcs).length →
      (handleCalStartStepCompleted st i flat nbars nlcs).calReceived =
        (if i = 0 then 0 else st.calReceived) + 1) ∧
    computeAllowed repeatStepTrace = true ∧
    repeatStepTrace.calAdv.map (fun m => m.Values.get? 1) = some (some [0, 0]) ∧
    repeatStepTrace.calAdv.map (fun m => m.Values.get? 2) = some (some [0, 0]) := by
  refine ⟨?_, by decide, by decide, by decide⟩
  intro st i flat nbars nlcs hi
  unfold handleCalStartStepCompleted
  dsimp only
  rw [applyStepSample_calReceived]
  unfold resetAtStepZero
  by_cases h0 : i = 0
  · rw [if_pos h0, if_pos h0]
  · rw [if_neg h0, if_neg h0]

/-- Witness for C10 at a concrete session state and step index. -/
theorem calReceived_counts_steps_only_witness :
    (handleCalStartStepCompleted ⟨5, [], 0, none, none⟩ 1 [3] 2 1).calReceived = 5 + 1 := by
  have h := calReceived_counts_steps_only.1 ⟨5, [], 0, none, none⟩ 1 [3] 2 1 (by decide)
  simpa using h

/-! ## Update-mode handshake (OpenToUpdate in the Leo485 driver) -/

/-- The Euler handshake constant from the Leo485 driver: the ASCII digits
of Euler's number followed by a carriage return. -/
def Euler : List Nat :=
  [50, 55, 49, 56, 50, 56, 49, 56, 50, 56, 52, 53, 57, 48, 52, 53, 50, 51, 53, 51,
   54, 48, 50, 56, 55, 52, 55, 49, 51, 53, 50, 55, 13]

/-- strings.Contains: pat occurs as a contiguous substring of s. -/
def listContains (s pat : List Nat) : Bool :=
  (List.range (s.length + 1)).any (fun i => pat.isPrefixOf (s.drop i))

/-- The bytes of the string Enter. -/
def enterBytes : List Nat := [69, 110, 116, 101, 114]

/-- OpenToUpdate from the Leo485 driver, modelled over the transport
result of sending the Euler constant: a transport error propagates, and
otherwise the call succeeds exactly when the reply contains Enter. -/
def OpenToUpdate (reply : Except String (List Nat)) : Except String Unit :=
  match reply with
  | Except.error e => Except.error e
  | Except.ok data =>
    if listContains data enterBytes then Except.ok () else Except.error "no enter"

/-- C7 (counterexample): the magic handshake constant holds 32 digits (33
bytes with the carriage return), not the 34 digits the claim states. -/
theorem euler_digit_count_counterexample :
    (Euler.filter isDigit).length = 32 ∧
    Euler.length = 33 ∧
    (Euler.filter isDigit).length ≠ 34 := by decide

/-- C7 (amended): EnterUpdateMode sends the fixed 32-digit magic handshake
string (the digits of Euler's number followed by a carriage return) and,
when the transport delivers a reply, succeeds if and only if the reply
contains the substring Enter; otherwise it returns an error, and
transport errors propagate unchanged. -/
theorem openToUpdate_succeeds_iff_enter (reply : List Nat) :
    (Euler.filter isDigit).length = 32 ∧
    Euler.getLast? = some 13 ∧
    (OpenToUpdate (Except.ok reply) = Except.ok () ↔
      listContains reply enterBytes = true) ∧
    (∀ e, OpenToUpdate (Except.error e) = Except.error e) := by
  have hred : OpenToUpdate (Except.ok reply) =
      if listContains reply enterBytes then Except.ok () else Except.error "no enter" := rfl
  refine ⟨by decide, by decide, ?_, fun e => rfl⟩
  rw [hred]
  constructor
  · intro h
    by_cases hc : listContains reply enterBytes = true
    · exact hc
    · rw [if_neg hc] at h
      exact absurd h (by simp)
  · intro h
    rw [if_pos h]

/-- Witness for the amended C7 theorem at a concrete reply containing
Enter. -/
theorem openToUpdate_succeeds_iff_enter_witness :
    OpenToUpdate (Except.ok [88, 69, 110, 116, 101, 114, 88]) = Except.ok () :=
  (openToUpdate_succeeds_iff_enter [88, 69, 110, 116, 101, 114, 88]).2.2.1.mpr (by decide)

/-! ## Averaging during sampling (manipulateADC in calibration/adc.go and
collectAveragedZeros in calibration/test.go) -/

/-- calculateFinalAverages from calibration/adc.go: per bar and load cell,
the sum of that cell over all collected samples divided by the number of
samples holding it (Go int64 truncating division); 0 when no sample holds
the cell, and an all-zero row for a bar without samples. -/
def calculateFinalAverages (samples : List (List (List Int))) (nlcs : Nat) :
    List (List Int) :=
  samples.map (fun barSamples =>
    if barSamples.isEmpty then List.replicate nlcs 0
    else
      (List.range nlcs).map (fun lc =>
        let entries := barSamples.filterMap (fun sample => sample.get? lc)
        if 0 < entries.length then (entries.foldl (· + ·) 0).tdiv (entries.length : Int)
        else 0))

/-- The per-bar sample lists collected by manipulateADC's averaging phase:
on every averaging tick each bar appends its current reading, and a failed
or empty read appends a zero-filled row instead of being skipped. -/
def averagingSamples (nbars avgTarget nlcs : Nat)
    (read : Nat → Nat → Option (List Int)) : List (List (List Int)) :=
  (List.range nbars).map (fun i =>
    (List.range avgTarget).map (fun t =>
      match read t i with
      | some bruts => if bruts.isEmpty then List.replicate nlcs 0 else bruts
      | none => List.replicate nlcs 0))

/-- C4 (counterexample): in manipulateADC's averaging phase a tick whose
read fails still contributes a zero sample to the sums and to the
denominator: one bar, one cell, reading 100 on tick 0 and a failed read
on tick 1 averages to 50, not to the true reading 100. -/
theorem manipulateADC_error_ticks_counterexample :
    averagingSamples 1 2 1 (fun t _ => if t = 0 then some [100] else none) = [[[100], [0]]] ∧
    calculateFinalAverages
      (averagingSamples 1 2 1 (fun t _ => if t = 0 then some [100] else none)) 1 = [[50]] ∧
    (50 : Int) ≠ 100 := by
  refine ⟨by decide, by decide, by decide⟩

/-- The contribution of one bar's read result to one flattened sums slot
in collectAveragedZeros: a failed or empty read is skipped and a missing
cell index reads as 0. -/
def readContribution (r : Option (List Int)) (lc : Nat) : Int :=
  match r with
  | some ad => if ad.isEmpty then 0 else (ad.get? lc).getD 0
  | none => 0

/-- The gotAny flag of one collectAveragedZeros iteration: at least one
bar produced a non-empty successful read. -/
def tickGotAny (nb : Nat) (reads : Nat → Option (List Int)) : Bool :=
  (List.range nb).any (fun i =>
    match reads i with
    | some ad => !ad.isEmpty
    | none => false)

/-- One sampling iteration's update of the flattened sums slice of
collectAveragedZeros: slot i*nlcs+lc accumulates bar i's cell lc. -/
def zeroTickSums (nlcs : Nat) (reads : Nat → Option (List Int)) (sums : List Int) :
    List Int :=
  sums.enum.map (fun p => p.2 + readContribution (reads (p.1 / nlcs)) (p.1 % nlcs))

/-- collectAveragedZeros from calibration/test.go with the device reads
abstracted as functions of iteration and bar (the discarded warmup reads
have no effect on the state and are omitted): samplesN iterations
accumulate sums, counting only iterations with at least one valid read;
the averages divide by that count, falling back to a one-shot read when
no iteration was valid. -/
def collectAveragedZeros (nb nlcs samplesN : Nat)
    (read : Nat → Nat → Option (List Int)) (oneShot : Nat → Option (List Int)) :
    List Int :=
  let final : List Int × Nat := (List.range samplesN).foldl
    (fun acc s =>
      (zeroTickSums nlcs (read s) acc.1,
       if tickGotAny nb (read s) then acc.2 + 1 else acc.2))
    (List.replicate (nb * nlcs) 0, 0)
  if final.2 = 0 then
    (List.range (nb * nlcs)).map (fun idx =>
      readContribution (oneShot (idx / nlcs)) (idx % nlcs))
  else
    final.1.map (fun s => s.tdiv (final.2 : Int))

theorem zeroTickSums_get (nlcs : Nat) (reads : Nat → Option (List Int)) (sums : List Int)
    (idx : Nat) :
    (zeroTickSums nlcs reads sums)[idx]? =
      sums[idx]?.map (fun x => x + readContribution (reads (idx / nlcs)) (idx % nlcs)) := by
  unfold zeroTickSums
  rw [List.getElem?_map, List.getElem?_enum, Option.map_map]
  rfl

theorem tickGotAny_none {nb : Nat} {reads : Nat → Option (List Int)}
    (h : ∀ i, reads i = none) : tickGotAny nb reads = false := by
  unfold tickGotAny
  rw [List.any_eq_false]
  intro i _
  rw [h i]
  simp

theorem tickGotAny_good {nb : Nat} {reads : Nat → Option (List Int)} {v : Nat → List Int}
    (hnb : 0 < nb) (hv : v 0 ≠ []) (h : ∀ i, reads i = some (v i)) :
    tickGotAny nb reads = true := by
  unfold tickGotAny
  rw [List.any_eq_true]
  refine ⟨0, List.mem_range.mpr hnb, ?_⟩
  rw [h 0]
  cases hc : v 0 with
  | nil => exact absurd hc hv
  | cons a as => simp

theorem collect_fold_invariant (nb nlcs : Nat) (read : Nat → Nat → Option (List Int))
    (v : Nat → List Int) (hnb : 0 < nb) (hv : ∀ i, v i ≠ []) :
    ∀ (ticks : List Nat),
      (∀ s ∈ ticks, (∀ i, read s i = none) ∨ (∀ i, read s i = some (v i))) →
      ∀ (sums : List Int) (count : Nat),
      (ticks.foldl (fun acc s =>
        (zeroTickSums nlcs (read s) acc.1,
         if tickGotAny nb (read s) then acc.2 + 1 else acc.2)) (sums, count)).2 =
        count + ticks.countP (fun s => tickGotAny nb (read s)) ∧
      ∀ idx, (ticks.foldl (fun acc s =>
        (zeroTickSums nlcs (read s) acc.1,
         if tickGotAny nb (read s) then acc.2 + 1 else acc.2)) (sums, count)).1[idx]? =
        sums[idx]?.map (fun x =>
          x + (ticks.countP (fun s => tickGotAny nb (read s)) : Int) *
            readContribution (some (v (idx / nlcs))) (idx % nlcs)) := by
  intro ticks
  induction ticks with
  | nil =>
    intro _ sums count
    refine ⟨by simp, fun idx => ?_⟩
    rw [List.countP_nil]
    cases h : sums[idx]? with
    | none =>
      simp only [List.foldl_nil, h]
      rfl
    | some x =>
      simp only [List.foldl_nil, h]
      simp
  | cons s ticks ih =>
    intro hticks sums count
    have hrest : ∀ t ∈ ticks, (∀ i, read t i = none) ∨ (∀ i, read t i = some (v i)) :=
      fun t ht => hticks t (List.mem_cons_of_mem s ht)
    rcases hticks s (List.mem_cons_self s ticks) with hnone | hgood
    · have hga : tickGotAny nb (read s) = false := tickGotAny_none hnone
      have hcond : ¬(tickGotAny nb (read s) = true) := by
        rw [hga]
        exact Bool.false_ne_true
      have hsums : zeroTickSums nlcs (read s) sums = sums := by
        unfold zeroTickSums
        have hcz : ∀ p : Nat × Int,
            p.2 + readContribution (read s (p.1 / nlcs)) (p.1 % nlcs) = p.2 := by
          intro p
          rw [hnone (p.1 / nlcs)]
          show p.2 + 0 = p.2
          omega
        calc sums.enum.map (fun p => p.2 + readContribution (read s (p.1 / nlcs)) (p.1 % nlcs))
            = sums.enum.map (fun p => p.2) := List.map_congr_left (fun p _ => hcz p)
        _ = sums := List.enum_map_snd sums
      rw [List.foldl_cons, List.countP_cons, if_neg hcond, if_neg hcond, hsums, Nat.add_zero]
      exact ih hrest sums count
    · have hga : tickGotAny nb (read s) = true := tickGotAny_good hnb (hv 0) hgood
      rw [List.foldl_cons, List.countP_cons, if_pos hga, if_pos hga]
      obtain ⟨h1, h2⟩ := ih hrest (zeroTickSums nlcs (read s) sums) (count + 1)
      refine ⟨?_, fun idx => ?_⟩
      · rw [h1]
        omega
      · rw [h2 idx, zeroTickSums_get, hgood (idx / nlcs), Option.map_map]
        cases hval : sums[idx]? with
        | none => rfl
        | some x =>
          show some _ = some _
          congr 1
          show x + readContribution (some (v (idx / nlcs))) (idx % nlcs) +
              (ticks.countP (fun s => tickGotAny nb (read s)) : Int) *
                readContribution (some (v (idx / nlcs))) (idx % nlcs) =
            x + ((ticks.countP (fun s => tickGotAny nb (read s)) + 1 : Nat) : Int) *
              readContribution (some (v (idx / nlcs))) (idx % nlcs)
          push_cast
          ring

theorem collectAveragedZeros_red (nb nlcs samplesN : Nat)
    (read : Nat → Nat → Option (List Int)) (oneShot : Nat → Option (List Int)) :
    collectAveragedZeros nb nlcs samplesN read oneShot =
      (if ((List.range samplesN).foldl
          (fun acc s =>
            (zeroTickSums nlcs (read s) acc.1,
             if tickGotAny nb (read s) then acc.2 + 1 else acc.2))
          (List.replicate (nb * nlcs) 0, 0) : List Int × Nat).2 = 0 then
        (List.range (nb * nlcs)).map (fun idx =>
          readContribution (oneShot (idx / nlcs)) (idx % nlcs))
      else
        ((List.range samplesN).foldl
          (fun acc s =>
            (zeroTickSums nlcs (read s) acc.1,
             if tickGotAny nb (read s) then acc.2 + 1 else acc.2))
          (List.replicate (nb * nlcs) 0, 0) : List Int × Nat).1.map
          (fun x => x.tdiv (((((List.range samplesN).foldl
            (fun acc s =>
              (zeroTickSums nlcs (read s) acc.1,
               if tickGotAny nb (read s) then acc.2 + 1 else acc.2))
            (List.replicate (nb * nlcs) 0, 0) : List Int × Nat)).2 : Int)))) := rfl

/-- C4 (amended): the spec's tick-exclusion claim holds for
collectAveragedZeros in calibration/test.go (but not for manipulateADC's
averaging phase, which counts error ticks as zero samples): when every
sampling iteration either fails entirely or returns the same valid reading
for every bar, the presence of at least one valid iteration makes the
result equal the true per-cell reading exactly (error iterations are
excluded from sums and denominator), and when every iteration fails the
result falls back to a one-shot read instead of dividing by zero. -/
theorem collectAveragedZeros_amended (nb nlcs samplesN : Nat)
    (read : Nat → Nat → Option (List Int)) (oneShot : Nat → Option (List Int))
    (v : Nat → List Int) (hnb : 0 < nb) (hv : ∀ i, v i ≠ [])
    (hticks : ∀ s ∈ List.range samplesN,
      (∀ i, read s i = none) ∨ (∀ i, read s i = some (v i))) :
    ((∃ s ∈ List.range samplesN, ∀ i, read s i = some (v i)) →
      collectAveragedZeros nb nlcs samplesN read oneShot =
        (List.range (nb * nlcs)).map (fun idx =>
          readContribution (some (v (idx / nlcs))) (idx % nlcs))) ∧
    ((∀ s ∈ List.range samplesN, ∀ i, read s i = none) →
      collectAveragedZeros nb nlcs samplesN read oneShot =
        (List.range (nb * nlcs)).map (fun idx =>
          readContribution (oneShot (idx / nlcs)) (idx % nlcs))) := by
  obtain ⟨h1, h2⟩ := collect_fold_invariant nb nlcs read v hnb hv (List.range samplesN)
    hticks (List.replicate (nb * nlcs) 0) 0
  rw [Nat.zero_add] at h1
  constructor
  · rintro ⟨s0, hs0, hgood0⟩
    have hk : 0 < (List.range samplesN).countP (fun s => tickGotAny nb (read s)) := by
      rw [List.countP_pos_iff]
      exact ⟨s0, hs0, tickGotAny_good hnb (hv 0) hgood0⟩
    have hne : ((List.range samplesN).foldl
        (fun acc s =>
          (zeroTickSums nlcs (read s) acc.1,
           if tickGotAny nb (read s) then acc.2 + 1 else acc.2))
        (List.replicate (nb * nlcs) 0, 0) : List Int × Nat).2 ≠ 0 := by
      rw [h1]
      omega
    rw [collectAveragedZeros_red, if_neg hne]
    apply List.ext_getElem?
    intro idx
    by_cases hidx : idx < nb * nlcs
    · rw [List.getElem?_map, h2 idx, List.getElem?_map, List.getElem?_range hidx,
        List.getElem?_replicate, if_pos hidx]
      simp only [Option.map_some']
      congr 1
      rw [h1, zero_add, Int.mul_tdiv_cancel_left]
      exact Int.natCast_ne_zero.mpr (Nat.pos_iff_ne_zero.mp hk)
    · have hr : (List.range (nb * nlcs))[idx]? = none :=
        List.getElem?_eq_none (by rw [List.length_range]; omega)
      rw [List.getElem?_map, h2 idx, List.getElem?_map, hr,
        List.getElem?_replicate, if_neg hidx]
      rfl
  · intro hall
    have hz : ((List.range samplesN).foldl
        (fun acc s =>
          (zeroTickSums nlcs (read s) acc.1,
           if tickGotAny nb (read s) then acc.2 + 1 else acc.2))
        (List.replicate (nb * nlcs) 0, 0) : List Int × Nat).2 = 0 := by
      rw [h1]
      exact List.countP_eq_zero.mpr (fun s hs => by
        rw [tickGotAny_none (hall s hs)]
        exact Bool.false_ne_true)
    rw [collectAveragedZeros_red, if_pos hz]

/-- C4 witness: one bar, one cell, two sampling iterations; iteration 0
reads 100, iteration 1 fails; collectAveragedZeros returns exactly 100
(the failed iteration is excluded from the denominator). -/
theorem collectAveragedZeros_amended_witness :
    collectAveragedZeros 1 1 2 (fun t _ => if t = 0 then some [100] else none)
      (fun _ => some [7]) = [100] := by
  have h := (collectAveragedZeros_amended 1 1 2
    (fun t _ => if t = 0 then some [100] else none) (fun _ => some [7])
    (fun _ => [100]) (by decide) (fun _ => List.cons_ne_nil 100 [])
    (by
      intro s hs
      have hs2 : s < 2 := List.mem_range.mp hs
      interval_cases s
      · exact Or.inr (fun i => rfl)
      · exact Or.inl (fun i => rfl))).1
    ⟨0, by decide, fun i => rfl⟩
  rw [h]
  decide
